import Mathlib

/-!
Verification of the CWL-on-Toil scheduling core (`src/toil/cwl/cwltoil.py`).

The development shallowly embeds the parts of `cwltoil.py` that the
specification's claims are about:

* the promise / merge / deferred-expression resolution engine
  (`MergeInputsNested.resolve`, `MergeInputsFlattened.resolve`,
  `_resolve_indirect_inner`, `resolve_indirect`),
* the scatter/gather task pair (`CWLScatter.run`,
  `CWLScatter.flat_crossproduct_scatter`,
  `CWLScatter.nested_crossproduct_scatter`, `CWLGather.extract`,
  `CWLGather.run`),
* resource-aware task construction (`makeJob`, `CWLJobWrapper`),
* the fixpoint scheduling loop of `CWLWorkflow.run`.

Python dictionaries are embedded as association lists with unique keys
(first-match `List.lookup` mirrors dict lookup; in-place assignment is
`setKey`).  External collaborator capabilities (the cwltool expression
evaluator `cwltool.expression.do_eval`, the identifier shortener
`shortname`, and resource extraction `Tool.evalResources`) are passed as
opaque function parameters, since they live outside this repository.
-/

/-- A concrete (JSON-like) runtime value, as produced by completed tasks
and consumed by the resolution engine.  Python's `None` is `null`. -/
inductive Value where
  | null : Value
  | int : Int → Value
  | str : String → Value
  | bool : Bool → Value
  | list : List Value → Value
  | dict : List (String × Value) → Value

/-- A pending (not yet resolved) value stored in a job's input object, as
built by `CWLWorkflow.run`:
* `concrete v` — a plain value (appears in ordinary, non-`IndirectDict`
  job objects, e.g. the per-element snapshots built by `CWLScatter`);
* `tagged key result` — the Python tuple `(key, handle)`: `handle` is a
  producer's promised result; resolution happens only after the host
  engine guarantees the producer completed, so the handle is embedded as
  the producer's concrete result mapping;
* `mergeNested sources` / `mergeFlattened sources` — `MergeInputsNested` /
  `MergeInputsFlattened` over a list of `(key, handle)` sources;
* `stepValueFrom expr inner req` — `StepValueFrom(expr, inner, req)`. -/
inductive PendingValue where
  | concrete : Value → PendingValue
  | tagged : String → List (String × Value) → PendingValue
  | mergeNested : List (String × List (String × Value)) → PendingValue
  | mergeFlattened : List (String × List (String × Value)) → PendingValue
  | stepValueFrom : String → PendingValue → Value → PendingValue

/-- A job's input mapping together with the `IndirectDict` marker class:
`indirect = true` embeds an `IndirectDict`, `indirect = false` a plain
`dict`. -/
structure PendingDict where
  indirect : Bool
  entries : List (String × PendingValue)

/-- Errors the embedded code can raise.  `keyError` / `indexError` /
`typeError` are Python's built-in exceptions (strict `d[k]`, `xs[i]`,
or an operation on a value of the wrong runtime type);
`unsupportedScatterType` and `missingScatterMethod` are the two
`validate.ValidationException`s raised by `CWLScatter.run`;
`unsupportedLinkMerge` is the `ValidationException` of
`CWLWorkflow.run`. -/
inductive CwlErr where
  | keyError : String → CwlErr
  | indexError : CwlErr
  | typeError : CwlErr
  | unsupportedScatterType : String → CwlErr
  | missingScatterMethod : CwlErr
  | unsupportedLinkMerge : String → CwlErr
deriving DecidableEq, Repr

/-- Embeds `MergeInputsNested.resolve`: `[v[1][v[0]] for v in self.sources]`.
Strict indexing `v[1][v[0]]` raises `KeyError` when the key is absent
from the producer's result. -/
def resolveMergeNested (sources : List (String × List (String × Value))) :
    Except CwlErr Value := do
  let vs ← sources.mapM (fun p =>
    match List.lookup p.1 p.2 with
    | some v => pure v
    | none => throw (CwlErr.keyError p.1))
  pure (Value.list vs)

/-- Embeds `MergeInputsFlattened.resolve`: per source, `v = v[1][v[0]]`; a list
value is spliced with `r.extend(v)`, any other value appended with
`r.append(v)`. -/
def resolveMergeFlattened (sources : List (String × List (String × Value))) :
    Except CwlErr Value := do
  let vs ← sources.mapM (fun p =>
    match List.lookup p.1 p.2 with
    | some v => pure v
    | none => throw (CwlErr.keyError p.1))
  let r := vs.foldl (fun acc v =>
    match v with
    | Value.list xs => acc ++ xs
    | x => acc ++ [x]) []
  pure (Value.list r)

/-- One value of an `IndirectDict`, as `_resolve_indirect_inner` treats it:
a `MergeInputs` instance is `.resolve()`d; anything else is assumed to be
a `(key, handle)` tuple and evaluated as `v[1].get(v[0])` — note `.get`,
which silently yields `None` for a missing key.  A value that is neither
a `MergeInputs` nor a tuple (a bare literal or a `StepValueFrom`) makes
the subscripting fail at runtime, embedded as `typeError`. -/
def resolveInnerValue : PendingValue → Except CwlErr PendingValue
  | PendingValue.mergeNested s =>
      (resolveMergeNested s).map PendingValue.concrete
  | PendingValue.mergeFlattened s =>
      (resolveMergeFlattened s).map PendingValue.concrete
  | PendingValue.tagged k res =>
      pure (PendingValue.concrete ((List.lookup k res).getD Value.null))
  | PendingValue.concrete _ => throw CwlErr.typeError
  | PendingValue.stepValueFrom _ _ _ => throw CwlErr.typeError

/-- Embeds `_resolve_indirect_inner(d)`: an `IndirectDict` has each of its values
resolved; any other dict is returned unchanged. -/
def resolveIndirectInner (d : PendingDict) :
    Except CwlErr (List (String × PendingValue)) :=
  if d.indirect then
    d.entries.mapM (fun kv => do
      let r ← resolveInnerValue kv.2
      pure (kv.1, r))
  else
    pure d.entries

/-- Is this value a `StepValueFrom` instance? -/
def isStepValueFrom : PendingValue → Bool
  | PendingValue.stepValueFrom _ _ _ => true
  | _ => false

/-- The `inner` field of a `StepValueFrom`; identity on anything else
(mirrors the copy loop at the top of `resolve_indirect`). -/
def stripStepValueFrom : PendingValue → PendingValue
  | PendingValue.stepValueFrom _ inner _ => inner
  | v => v

/-- Embeds `resolve_indirect(d)`.  The expression evaluator
`cwltool.expression.do_eval(expr, inputs, req, ..., context=ctx)` called
by `StepValueFrom.do_eval` is an external collaborator and is passed in
as the opaque parameter `ev expr req inputs ctx`. -/
def resolve_indirect
    (ev : String → Value → List (String × PendingValue) → PendingValue → Value)
    (d : PendingDict) : Except CwlErr (List (String × PendingValue)) := do
  let inner : PendingDict :=
    ⟨d.indirect, d.entries.map (fun kv => (kv.1, stripStepValueFrom kv.2))⟩
  let needEval := d.entries.any (fun kv => isStepValueFrom kv.2)
  let res ← resolveIndirectInner inner
  if needEval then
    d.entries.mapM (fun kv =>
      match kv.2 with
      | PendingValue.stepValueFrom e _ req => do
          let ctx ← match List.lookup kv.1 res with
            | some c => pure c
            | none => throw (CwlErr.keyError kv.1)
          pure (kv.1, PendingValue.concrete (ev e req res ctx))
      | _ => do
          let r ← match List.lookup kv.1 res with
            | some c => pure c
            | none => throw (CwlErr.keyError kv.1)
          pure (kv.1, r))
  else
    pure res

/-- A trivial instantiation of the external expression evaluator, used
only to state closed (fully concrete) facts that do not involve
`StepValueFrom` values. -/
def constNullEval : String → Value → List (String × PendingValue) →
    PendingValue → Value :=
  fun _ _ _ _ => Value.null

example : resolveMergeNested
    [("a", [("a", Value.list [Value.int 1, Value.int 2])]),
     ("b", [("b", Value.int 3)])] =
    Except.ok (Value.list [Value.list [Value.int 1, Value.int 2], Value.int 3]) := rfl

example : resolveMergeFlattened
    [("a", [("a", Value.list [Value.int 1, Value.int 2])]),
     ("b", [("b", Value.int 3)])] =
    Except.ok (Value.list [Value.int 1, Value.int 2, Value.int 3]) := rfl

/-- Binding an `Except.ok` just applies the continuation. -/
theorem except_ok_bind {ε α β : Type} (a : α) (f : α → Except ε β) :
    (Except.ok (ε := ε) a >>= f) = f a := rfl

/-- The flattening combination in the specification's words: list-typed
values are concatenated element-wise, anything else is appended as a
single element, order preserved. -/
def flattenValues : List Value → List Value
  | [] => []
  | Value.list xs :: rest => xs ++ flattenValues rest
  | v :: rest => v :: flattenValues rest

/-- The `r.extend`/`r.append` accumulation loop of
`MergeInputsFlattened.resolve` computes `flattenValues`. -/
theorem foldl_extend_eq_flattenValues (vs : List Value) (acc : List Value) :
    vs.foldl (fun acc v =>
      match v with
      | Value.list xs => acc ++ xs
      | x => acc ++ [x]) acc = acc ++ flattenValues vs := by
  induction vs generalizing acc with
  | nil => simp [flattenValues]
  | cons v rest ih =>
    cases v <;> simp [flattenValues, ih, List.append_assoc]

/-- Resolving every merge source `(key, result)` by strict indexing
succeeds and yields the looked-up values when every key is present. -/
theorem mapM_lookup_ok (sources : List (String × List (String × Value)))
    (h : ∀ p ∈ sources, ∃ v, List.lookup p.1 p.2 = some v) :
    (sources.mapM (fun p =>
      match List.lookup p.1 p.2 with
      | some v => pure v
      | none => throw (CwlErr.keyError p.1)) :
        Except CwlErr (List Value)) =
    Except.ok (sources.map (fun p => (List.lookup p.1 p.2).getD Value.null)) := by
  induction sources with
  | nil => rfl
  | cons p rest ih =>
    obtain ⟨v, hv⟩ := h p (List.mem_cons_self p rest)
    have hrest := ih (fun q hq => h q (List.mem_cons_of_mem p hq))
    simp only [List.mapM_cons, hv, List.map_cons, Option.getD_some]
    rw [hrest]
    rfl

/-- Claim C5: resolving a `MergeSpec` first resolves every source
promise, then combines them in source order: `MergeInputsNested.resolve`
wraps each resolved value as one list entry, and
`MergeInputsFlattened.resolve` concatenates list-typed resolved values
element-wise and appends non-list values as single elements, order
preserved (`flattenValues`). -/
theorem merge_resolve_semantics (sources : List (String × List (String × Value)))
    (h : ∀ p ∈ sources, ∃ v, List.lookup p.1 p.2 = some v) :
    resolveMergeNested sources =
      Except.ok (Value.list
        (sources.map (fun p => (List.lookup p.1 p.2).getD Value.null))) ∧
    resolveMergeFlattened sources =
      Except.ok (Value.list (flattenValues
        (sources.map (fun p => (List.lookup p.1 p.2).getD Value.null)))) := by
  constructor
  · unfold resolveMergeNested
    rw [mapM_lookup_ok sources h]
    rfl
  · unfold resolveMergeFlattened
    rw [mapM_lookup_ok sources h, except_ok_bind]
    simp only [foldl_extend_eq_flattenValues, List.nil_append]
    rfl

/-- Witness for C5 at the specification's example `[[1,2], 3]`:
`merge_nested` yields `[[1,2],3]` and `merge_flattened` yields `[1,2,3]`. -/
theorem merge_resolve_semantics_witness :
    resolveMergeNested
        [("a", [("a", Value.list [Value.int 1, Value.int 2])]),
         ("b", [("b", Value.int 3)])] =
      Except.ok (Value.list [Value.list [Value.int 1, Value.int 2], Value.int 3]) ∧
    resolveMergeFlattened
        [("a", [("a", Value.list [Value.int 1, Value.int 2])]),
         ("b", [("b", Value.int 3)])] =
      Except.ok (Value.list [Value.int 1, Value.int 2, Value.int 3]) := by
  have h := merge_resolve_semantics
    [("a", [("a", Value.list [Value.int 1, Value.int 2])]),
     ("b", [("b", Value.int 3)])]
    (by
      intro p hp
      simp only [List.mem_cons, List.not_mem_nil, or_false] at hp
      rcases hp with h1 | h2
      · exact ⟨Value.list [Value.int 1, Value.int 2], by rw [h1]; rfl⟩
      · exact ⟨Value.int 3, by rw [h2]; rfl⟩)
  exact ⟨h.1.trans (by rfl), h.2.trans (by rfl)⟩

/-- Claim C3 (counterexample): resolving an `IndirectDict` whose tagged
promise refers to a key absent from the producer's result does NOT fail —
`v[1].get(v[0])` silently substitutes `None` (null). -/
theorem resolve_tagged_missing_key_no_error :
    resolve_indirect constNullEval
      ⟨true, [("x", PendingValue.tagged "out" [("other", Value.int 1)])]⟩ =
    Except.ok [("x", PendingValue.concrete Value.null)] := rfl

/-- Claim C3 (amended): resolving a tagged promise `(key, handle)` inside
an `IndirectDict` yields `handle.result[key]` when the key is present,
and silently substitutes null (`dict.get`'s default) when the key is
absent from the producer's result; no missing-output-key error is
raised. -/
theorem resolve_tagged_promise_get_semantics
    (ev : String → Value → List (String × PendingValue) → PendingValue → Value)
    (k key : String) (res : List (String × Value)) :
    resolve_indirect ev ⟨true, [(k, PendingValue.tagged key res)]⟩ =
    Except.ok [(k, PendingValue.concrete ((List.lookup key res).getD Value.null))] := by
  simp [resolve_indirect, resolveIndirectInner, resolveInnerValue,
    stripStepValueFrom, isStepValueFrom]
  rfl

/-- On a plain (non-indirect) dict whose values are all concrete,
`resolve_indirect` is the identity: the copy loop copies every entry
unchanged, no `StepValueFrom` forces an evaluation pass, and
`_resolve_indirect_inner` returns a non-`IndirectDict` as is. -/
theorem resolve_plain_passthrough
    (ev : String → Value → List (String × PendingValue) → PendingValue → Value)
    (d : PendingDict)
    (hplain : d.indirect = false)
    (hconc : ∀ kv ∈ d.entries, ∃ v, kv.2 = PendingValue.concrete v) :
    resolve_indirect ev d = Except.ok d.entries := by
  have hmapGen : ∀ l : List (String × PendingValue),
      (∀ kv ∈ l, ∃ v, kv.2 = PendingValue.concrete v) →
      l.map (fun kv => (kv.1, stripStepValueFrom kv.2)) = l := by
    intro l hl
    induction l with
    | nil => rfl
    | cons a t ih =>
      obtain ⟨v, hv⟩ := hl a (List.mem_cons_self a t)
      have ha : stripStepValueFrom a.2 = a.2 := by rw [hv]; rfl
      simp [ha, ih (fun kv hkv => hl kv (List.mem_cons_of_mem a hkv))]
  have hmap := hmapGen d.entries hconc
  have hany : d.entries.any (fun kv => isStepValueFrom kv.2) = false := by
    apply List.any_eq_false.mpr
    intro kv hkv
    obtain ⟨v, hv⟩ := hconc kv hkv
    rw [hv]
    simp [isStepValueFrom]
  unfold resolve_indirect
  rw [hmap, hany]
  simp [resolveIndirectInner, hplain]
  rfl

/-- Claim C9: `resolve_indirect` on an already fully resolved plain
mapping (no promise, merge, or deferred-expression values) returns the
mapping unchanged. -/
theorem resolve_idempotent_on_resolved
    (ev : String → Value → List (String × PendingValue) → PendingValue → Value)
    (d : PendingDict)
    (hplain : d.indirect = false)
    (hconc : ∀ kv ∈ d.entries, ∃ v, kv.2 = PendingValue.concrete v) :
    resolve_indirect ev d = Except.ok d.entries :=
  resolve_plain_passthrough ev d hplain hconc

/-- Witness for C9: resolving the already resolved plain mapping
`{"a": 1, "b": [2]}` returns it unchanged. -/
theorem resolve_idempotent_on_resolved_witness :
    resolve_indirect constNullEval
      ⟨false, [("a", PendingValue.concrete (Value.int 1)),
               ("b", PendingValue.concrete (Value.list [Value.int 2]))]⟩ =
    Except.ok [("a", PendingValue.concrete (Value.int 1)),
               ("b", PendingValue.concrete (Value.list [Value.int 2]))] := by
  apply resolve_idempotent_on_resolved
  · rfl
  · intro kv hkv
    simp only [List.mem_cons, List.not_mem_nil, or_false] at hkv
    rcases hkv with h | h
    · exact ⟨Value.int 1, by rw [h]⟩
    · exact ⟨Value.list [Value.int 2], by rw [h]⟩

/-! ## Scatter / gather (`CWLScatter`, `CWLGather`) -/

/-- A concrete per-child input mapping, as handed to `makeJob` for one
scatter element. -/
abbrev JobOrder := List (String × Value)

/-- The `outputs` structure accumulated by `CWLScatter.run`: each
appended `followOn.rv()` is recorded as a `leaf` carrying the input
object the child task was constructed with; `nested_crossproduct_scatter`
appends whole sub-lists, recorded as `node`s. -/
inductive OutTree where
  | leaf : JobOrder → OutTree
  | node : List OutTree → OutTree

/-- Python dict assignment `jo[k] = v`: overwrite in place when the key
exists, append otherwise. -/
def setKey : JobOrder → String → Value → JobOrder
  | [], k, v => [(k, v)]
  | (k', v') :: rest, k, v =>
      if k' = k then (k, v) :: rest else (k', v') :: setKey rest k v

/-- Embeds `len(jo[k])` and iteration over `jo[k]`: a missing key is a `KeyError`;
a non-sequence value cannot be length-measured and indexed the way the
scatter code does, embedded as `typeError`. -/
def getListAt (jo : JobOrder) (k : String) : Except CwlErr (List Value) :=
  match List.lookup k jo with
  | none => throw (CwlErr.keyError k)
  | some (Value.list xs) => pure xs
  | some _ => throw CwlErr.typeError

/-- One step input as `CWLScatter.run` reads it: its identifier and its
optional `valueFrom` expression. -/
structure SInput where
  id : String
  valueFrom : Option String

/-- The parts of a workflow step that `CWLScatter.run` consumes:
`aslist(step.tool["scatter"])`, `step.tool.get("scatterMethod")`, the
step inputs (for the `valueFrom` table), and `step.requirements`
(an opaque context handed to the external expression evaluator). -/
structure ScatterStep where
  scatter : List String
  scatterMethod : Option String
  inputs : List SInput
  requirements : Value

/-- Embeds `postScatterEval(io)` from `CWLScatter.run`: every key with a
`valueFrom` expression is re-evaluated by the external evaluator
`evS expr req shortio ctx` against the shortname-keyed snapshot, with the
current value as context; all other keys pass through. -/
def postScatterEval (sn : String → String)
    (evS : String → Value → JobOrder → Value → Value)
    (req : Value) (valueFrom : List (String × String)) (io : JobOrder) :
    JobOrder :=
  let shortio := io.map (fun kv => (sn kv.1, kv.2))
  io.map (fun kv =>
    match List.lookup kv.1 valueFrom with
    | some e => (kv.1, evS e req shortio kv.2)
    | none => kv)

/-- The `scatterMethod == "dotproduct"` branch of `CWLScatter.run`: the
iteration count is the length of the FIRST scattered key's list; each
iteration overwrites every scattered key with its i-th element
(`cwljob[sc][i]`, an `IndexError` when a later key's list is shorter),
then applies `postScatterEval` and constructs one child task. -/
def dotproductScatter (sn : String → String)
    (evS : String → Value → JobOrder → Value → Value)
    (req : Value) (valueFrom : List (String × String))
    (cwljob : JobOrder) (scatter : List String) :
    Except CwlErr (List OutTree) := do
  match scatter with
  | [] => throw CwlErr.indexError
  | s0 :: _ => do
    let first ← getListAt cwljob (sn s0)
    (List.range first.length).mapM (fun i => do
      let cj ← (scatter.map sn).foldlM (fun acc sc => do
        let xs ← getListAt cwljob sc
        match xs[i]? with
        | some x => pure (setKey acc sc x)
        | none => throw CwlErr.indexError) cwljob
      pure (OutTree.leaf (postScatterEval sn evS req valueFrom cj)))

/-- Embeds `CWLScatter.flat_crossproduct_scatter(joborder, scatter_keys,
outputs, postScatterEval)`: recurses over the scattered keys, threading
the shared `outputs` accumulator; at the last key every element snapshot
becomes one appended child. -/
def flat_crossproduct_scatter (sn : String → String)
    (evS : String → Value → JobOrder → Value → Value)
    (req : Value) (valueFrom : List (String × String)) :
    (scatter_keys : List String) → JobOrder → List OutTree →
      Except CwlErr (List OutTree)
  | [], _, _ => throw CwlErr.indexError
  | k0 :: rest, joborder, outputs => do
    let xs ← getListAt joborder (sn k0)
    match rest with
    | [] =>
        pure (outputs ++ xs.map (fun x =>
          OutTree.leaf (postScatterEval sn evS req valueFrom
            (setKey joborder (sn k0) x))))
    | r1 :: rrest =>
        xs.foldlM (fun outs x =>
          flat_crossproduct_scatter sn evS req valueFrom (r1 :: rrest)
            (setKey joborder (sn k0) x) outs) outputs
termination_by keys _ _ => keys.length

/-- Embeds `CWLScatter.nested_crossproduct_scatter(joborder, scatter_keys,
postScatterEval)`: as the flat variant, but each outer element's
recursive result is appended as one nested list. -/
def nested_crossproduct_scatter (sn : String → String)
    (evS : String → Value → JobOrder → Value → Value)
    (req : Value) (valueFrom : List (String × String)) :
    (scatter_keys : List String) → JobOrder →
      Except CwlErr (List OutTree)
  | [], _ => throw CwlErr.indexError
  | k0 :: rest, joborder => do
    let xs ← getListAt joborder (sn k0)
    match rest with
    | [] =>
        pure (xs.map (fun x =>
          OutTree.leaf (postScatterEval sn evS req valueFrom
            (setKey joborder (sn k0) x))))
    | r1 :: rrest => do
        let ts ← xs.mapM (fun x =>
          nested_crossproduct_scatter sn evS req valueFrom (r1 :: rrest)
            (setKey joborder (sn k0) x))
        pure (ts.map OutTree.node)
termination_by keys _ => keys.length

/-- Requires every resolved entry to be a plain concrete value, the shape
the scatter loops index into.  (A `CWLScatter` is always constructed over
an `IndirectDict`, whose resolution yields only concrete values.) -/
def toConcreteDict (l : List (String × PendingValue)) :
    Except CwlErr JobOrder :=
  l.mapM (fun kv =>
    match kv.2 with
    | PendingValue.concrete v => pure (kv.1, v)
    | _ => throw CwlErr.typeError)

/-- The method dispatch of `CWLScatter.run`, after the pending input
object has been resolved: force `scatterMethod = "dotproduct"` whenever
exactly one key is scattered, build the `valueFrom` table from the step
inputs, then run the selected method; an unrecognized method raises
`Unsupported complex scatter type '%s'`, a missing one `Must provide
scatterMethod to scatter over multiple inputs`. -/
def scatterDispatch (sn : String → String)
    (evS : String → Value → JobOrder → Value → Value)
    (step : ScatterStep) (cwljob : JobOrder) :
    Except CwlErr (List OutTree) :=
  let scatterMethod :=
    if step.scatter.length == 1 then some "dotproduct" else step.scatterMethod
  let valueFrom := step.inputs.filterMap
    (fun i => i.valueFrom.map (fun e => (sn i.id, e)))
  match scatterMethod with
  | some "dotproduct" =>
      dotproductScatter sn evS step.requirements valueFrom cwljob step.scatter
  | some "nested_crossproduct" =>
      nested_crossproduct_scatter sn evS step.requirements valueFrom
        step.scatter cwljob
  | some "flat_crossproduct" =>
      flat_crossproduct_scatter sn evS step.requirements valueFrom
        step.scatter cwljob []
  | some m => throw (CwlErr.unsupportedScatterType m)
  | none => throw CwlErr.missingScatterMethod

/-- Embeds `CWLScatter.run(fileStore)`: resolve the pending input object with
`resolve_indirect`, then dispatch on the scatter method. -/
def CWLScatter_run (sn : String → String)
    (evR : String → Value → List (String × PendingValue) → PendingValue → Value)
    (evS : String → Value → JobOrder → Value → Value)
    (step : ScatterStep) (pending : PendingDict) :
    Except CwlErr (List OutTree) := do
  let res ← resolve_indirect evR pending
  let cwljob ← toConcreteDict res
  scatterDispatch sn evS step cwljob

/-- A fully concrete job mapping wrapped as the plain (non-indirect)
pending dict that carries it between tasks. -/
def liftConcrete (jo : JobOrder) : PendingDict :=
  ⟨false, jo.map (fun kv => (kv.1, PendingValue.concrete kv.2))⟩

/-! ## Gather (`CWLGather`) -/

/-- Embeds `CWLGather.extract(obj, k)`: a mapping yields `obj.get(k)` (null when
absent), a sequence recurses element-wise, anything else yields the empty
sequence. -/
def CWLGather_extract (obj : Value) (k : String) : Value :=
  match obj with
  | Value.dict d => (List.lookup k d).getD Value.null
  | Value.list ls => Value.list (ls.attach.map (fun x => CWLGather_extract x.1 k))
  | _ => Value.list []
termination_by sizeOf obj
decreasing_by
  obtain ⟨y, hy⟩ := x
  have h := List.sizeOf_lt_of_mem hy
  simp_all
  omega

/-- Embeds `CWLGather.run(fileStore)`: for every declared step output key,
extract that key from the scattered child results. -/
def CWLGather_run (sn : String → String) (stepOut : List String)
    (outputs : Value) : List (String × Value) :=
  stepOut.map (fun o => (sn o, CWLGather_extract outputs (sn o)))

/-- The run-time shape of a scatter result: a (possibly nested, per
scatter method) grouping whose leaves are completed child result
mappings. -/
inductive ResTree where
  | res : List (String × Value) → ResTree
  | grp : List ResTree → ResTree

/-- The plain value a `ResTree` denotes (lists of lists of ... of result
dicts), i.e. what `CWLGather.run` receives as `self.outputs`. -/
def ResTree.toValue : ResTree → Value
  | ResTree.res d => Value.dict d
  | ResTree.grp ts => Value.list (ts.attach.map (fun x => x.1.toValue))
termination_by t => sizeOf t
decreasing_by
  obtain ⟨y, hy⟩ := x
  have h := List.sizeOf_lt_of_mem hy
  simp_all
  omega

/-- The specification's required gather result: the same nesting shape as
the scatter produced, with every child result dict replaced by its value
under the key (null when the key is absent). -/
def ResTree.extractKey (k : String) : ResTree → Value
  | ResTree.res d => (List.lookup k d).getD Value.null
  | ResTree.grp ts => Value.list (ts.attach.map (fun x => x.1.extractKey k))
termination_by t => sizeOf t
decreasing_by
  obtain ⟨y, hy⟩ := x
  have h := List.sizeOf_lt_of_mem hy
  simp_all
  omega

/-- Attaching membership proofs does not change a `map` that ignores
them. -/
theorem attach_map_fst {α β : Type} (l : List α) (f : α → β) :
    l.attach.map (fun x => f x.1) = l.map f := by
  simp


/-- Gathering a materialized scatter result reproduces its nesting shape:
extracting a key from the value a `ResTree` denotes yields exactly the
same tree with each child result dict replaced by its value under that
key. -/
theorem gather_extract_tree : (t : ResTree) → (k : String) →
    CWLGather_extract (ResTree.toValue t) k = ResTree.extractKey k t
  | ResTree.res d, k => by
      simp only [ResTree.toValue, ResTree.extractKey, CWLGather_extract]
  | ResTree.grp ts, k => by
      simp only [ResTree.toValue, ResTree.extractKey, CWLGather_extract]
      rw [attach_map_fst ts (fun t => ResTree.toValue t),
        attach_map_fst (ts.map (fun t => ResTree.toValue t))
          (fun v => CWLGather_extract v k),
        attach_map_fst ts (fun t => ResTree.extractKey k t), List.map_map]
      apply congrArg Value.list
      apply List.map_congr_left
      intro x hx
      exact gather_extract_tree x k
termination_by t _ => sizeOf t
decreasing_by
  have h := List.sizeOf_lt_of_mem hx
  simp_all
  omega

/-- Claim C8: for every scatter shape and declared step output key, the
gather task reconstructs exactly the nesting the scatter produced, by
recursively extracting that key: a mapping yields the value stored under
the key, a sequence recurses element-wise preserving length and order,
any other value yields an empty sequence; on a materialized scatter
result tree the extraction equals the shape-preserving `extractKey`, and
`CWLGather.run` performs this extraction for every declared output key. -/
theorem gather_reconstructs_scatter_shape :
    (∀ (d : List (String × Value)) (k : String),
      CWLGather_extract (Value.dict d) k = (List.lookup k d).getD Value.null) ∧
    (∀ (ls : List Value) (k : String),
      CWLGather_extract (Value.list ls) k =
        Value.list (ls.map (fun l => CWLGather_extract l k))) ∧
    (∀ (v : Value) (k : String),
      (∀ d, v ≠ Value.dict d) → (∀ ls, v ≠ Value.list ls) →
      CWLGather_extract v k = Value.list []) ∧
    (∀ (t : ResTree) (k : String),
      CWLGather_extract (ResTree.toValue t) k = ResTree.extractKey k t) ∧
    (∀ (sn : String → String) (outs : List String) (v : Value),
      CWLGather_run sn outs v =
        outs.map (fun o => (sn o, CWLGather_extract v (sn o)))) := by
  refine ⟨?_, ?_, ?_, gather_extract_tree, ?_⟩
  · intro d k
    simp only [CWLGather_extract]
  · intro ls k
    simp only [CWLGather_extract]
    rw [attach_map_fst ls (fun l => CWLGather_extract l k)]
  · intro v k hd hls
    cases v with
    | dict d => exact absurd rfl (hd d)
    | list ls => exact absurd rfl (hls ls)
    | null => simp only [CWLGather_extract]
    | int n => simp only [CWLGather_extract]
    | str s => simp only [CWLGather_extract]
    | bool b => simp only [CWLGather_extract]
  · intro sn outs v
    rfl

/-- Witness for C8: a two-level scatter result (a flat child next to a
nested group) gathers back into the same two-level shape, and extraction
from a non-dict non-list child yields the empty sequence. -/
theorem gather_reconstructs_scatter_shape_witness :
    CWLGather_extract
        (ResTree.toValue (ResTree.grp
          [ResTree.res [("o", Value.int 1)],
           ResTree.grp [ResTree.res [("o", Value.int 2)]]])) "o" =
      Value.list [Value.int 1, Value.list [Value.int 2]] ∧
    CWLGather_extract (Value.int 7) "o" = Value.list [] := by
  constructor
  · rw [gather_reconstructs_scatter_shape.2.2.2.1
      (ResTree.grp [ResTree.res [("o", Value.int 1)],
        ResTree.grp [ResTree.res [("o", Value.int 2)]]]) "o"]
    simp [ResTree.extractKey, attach_map_fst, List.lookup]
  · exact gather_reconstructs_scatter_shape.2.2.1 (Value.int 7) "o"
      (fun d h => by cases h) (fun ls h => by cases h)

/-! ## Generic helper lemmas about `Except` traversals -/

/-- Binding an `Except.error` short-circuits. -/
theorem except_error_bind {ε α β : Type} (e : ε) (f : α → Except ε β) :
    (Except.error (α := α) e >>= f) = Except.error e := rfl

/-- Pointwise successes make `mapM` succeed. -/
theorem mapM_ok_of_forall {ε α β : Type} (l : List α) (f : α → Except ε β)
    (g : α → β) (h : ∀ a ∈ l, f a = Except.ok (g a)) :
    l.mapM f = Except.ok (l.map g) := by
  induction l with
  | nil => rfl
  | cons a t ih =>
    rw [List.mapM_cons, h a (List.mem_cons_self a t), except_ok_bind,
      ih (fun b hb => h b (List.mem_cons_of_mem a hb)), except_ok_bind]
    rfl

/-- The first failing element makes `mapM` fail with its error. -/
theorem mapM_error_mid {ε α β : Type} (l1 : List α) (m : α) (l2 : List α)
    (f : α → Except ε β) (g : α → β) (e : ε)
    (h1 : ∀ a ∈ l1, f a = Except.ok (g a)) (hm : f m = Except.error e) :
    (l1 ++ m :: l2).mapM f = Except.error e := by
  induction l1 with
  | nil =>
    rw [List.nil_append, List.mapM_cons, hm, except_error_bind]
  | cons a t ih =>
    rw [List.cons_append, List.mapM_cons, h1 a (List.mem_cons_self a t),
      except_ok_bind, ih (fun b hb => h1 b (List.mem_cons_of_mem a hb)),
      except_error_bind]

/-- A `foldlM` whose every step appends a block to the accumulator. -/
theorem foldlM_ok_append {ε α β : Type} (l : List α) (B : α → List β)
    (f : List β → α → Except ε (List β)) (init : List β)
    (hf : ∀ acc, ∀ a ∈ l, f acc a = Except.ok (acc ++ B a)) :
    l.foldlM f init = Except.ok (init ++ (l.map B).flatten) := by
  induction l generalizing init with
  | nil => simp [List.foldlM]; rfl
  | cons a t ih =>
    rw [List.foldlM_cons, hf init a (List.mem_cons_self a t), except_ok_bind,
      ih (init ++ B a) (fun acc b hb => hf acc b (List.mem_cons_of_mem a hb))]
    simp [List.append_assoc]

/-! ## Lookup / assignment lemmas -/

/-- Assigning a key makes it found. -/
theorem lookup_setKey_self (jo : JobOrder) (k : String) (v : Value) :
    List.lookup k (setKey jo k v) = some v := by
  induction jo with
  | nil => simp [setKey, List.lookup]
  | cons kv rest ih =>
    obtain ⟨k', v'⟩ := kv
    by_cases h : k' = k
    · subst h
      simp [setKey, List.lookup]
    · have hbeq : (k == k') = false :=
        beq_eq_false_iff_ne.mpr (fun e => h e.symm)
      simp [setKey, h, List.lookup, hbeq, ih]

/-- Assigning one key leaves every other key's binding unchanged. -/
theorem lookup_setKey_ne (jo : JobOrder) (k k' : String) (v : Value)
    (h : k ≠ k') : List.lookup k' (setKey jo k v) = List.lookup k' jo := by
  induction jo with
  | nil =>
    have hbeq : (k' == k) = false :=
      beq_eq_false_iff_ne.mpr (fun e => h e.symm)
    simp [setKey, List.lookup, hbeq]
  | cons kv rest ih =>
    obtain ⟨k1, v1⟩ := kv
    by_cases h1 : k1 = k
    · subst h1
      have hbeq : (k' == k1) = false :=
        beq_eq_false_iff_ne.mpr (fun e => h e.symm)
      simp [setKey, List.lookup, hbeq]
    · simp [setKey, h1, List.lookup, ih]

/-! ## Indexed-iteration lemmas -/

/-- Mapping an index function over `range xs.length` is mapping over
`xs`. -/
theorem range_map_getD {β : Type} (xs : List Value) (F : Value → β) :
    (List.range xs.length).map (fun i => F ((xs[i]?).getD Value.null)) =
    xs.map F := by
  induction xs with
  | nil => rfl
  | cons x t ih =>
    rw [List.length_cons, List.range_succ_eq_map, List.map_cons, List.map_map]
    simp only [List.getElem?_cons_zero, Option.getD_some, Function.comp_def,
      List.getElem?_cons_succ]
    rw [ih]
    rfl

/-- Lock-step indexed iteration over the first list's range is `zipWith`
when the second list is at least as long. -/
theorem range_map_getD2 {β : Type} (xs ys : List Value)
    (F : Value → Value → β) (h : xs.length ≤ ys.length) :
    (List.range xs.length).map
      (fun i => F ((xs[i]?).getD Value.null) ((ys[i]?).getD Value.null)) =
    List.zipWith F xs ys := by
  induction xs generalizing ys with
  | nil => rfl
  | cons x t ih =>
    cases ys with
    | nil => exact absurd h (by simp)
    | cons y u =>
      rw [List.length_cons, List.range_succ_eq_map, List.map_cons, List.map_map]
      simp only [List.getElem?_cons_zero, Option.getD_some, Function.comp_def,
        List.getElem?_cons_succ, List.zipWith_cons_cons]
      rw [ih u (by simpa using h)]

/-! ## Running a scatter over an already concrete mapping -/

/-- Unwrapping the concrete lift of a job mapping gives it back. -/
theorem toConcreteDict_lift (jo : JobOrder) :
    toConcreteDict (jo.map (fun kv => (kv.1, PendingValue.concrete kv.2))) =
    Except.ok jo := by
  induction jo with
  | nil => rfl
  | cons kv rest ih =>
    obtain ⟨k, v⟩ := kv
    simp only [toConcreteDict, List.map_cons, List.mapM_cons] at ih ⊢
    rw [pure_bind, ih, except_ok_bind]
    rfl

/-- Running `CWLScatter.run` over a plain, fully concrete job mapping reduces to
the method dispatch on that mapping (the resolution phase passes it
through unchanged). -/
theorem scatter_run_on_concrete (sn : String → String)
    (evR : String → Value → List (String × PendingValue) → PendingValue → Value)
    (evS : String → Value → JobOrder → Value → Value)
    (step : ScatterStep) (jo : JobOrder) :
    CWLScatter_run sn evR evS step (liftConcrete jo) =
    scatterDispatch sn evS step jo := by
  unfold CWLScatter_run
  rw [resolve_plain_passthrough evR (liftConcrete jo) rfl
    (by
      intro kv hkv
      simp only [liftConcrete, List.mem_map] at hkv
      obtain ⟨a, _, rfl⟩ := hkv
      exact ⟨a.2, rfl⟩)]
  rw [except_ok_bind]
  simp only [liftConcrete]
  rw [toConcreteDict_lift, except_ok_bind]

/-- With a single scattered key, the dispatch is the dotproduct branch,
whatever `scatterMethod` the step declares. -/
theorem scatterDispatch_single (sn : String → String)
    (evS : String → Value → JobOrder → Value → Value)
    (s0 : String) (m : Option String) (inps : List SInput) (req : Value)
    (jo : JobOrder) :
    scatterDispatch sn evS ⟨[s0], m, inps, req⟩ jo =
    dotproductScatter sn evS req
      (inps.filterMap (fun i => i.valueFrom.map (fun e => (sn i.id, e))))
      jo [s0] := rfl

/-- With two scattered keys and a declared `dotproduct` method, the
dispatch is the dotproduct branch. -/
theorem scatterDispatch_two_dot (sn : String → String)
    (evS : String → Value → JobOrder → Value → Value)
    (s0 s1 : String) (inps : List SInput) (req : Value) (jo : JobOrder) :
    scatterDispatch sn evS ⟨[s0, s1], some "dotproduct", inps, req⟩ jo =
    dotproductScatter sn evS req
      (inps.filterMap (fun i => i.valueFrom.map (fun e => (sn i.id, e))))
      jo [s0, s1] := rfl

/-- With two scattered keys and a declared `nested_crossproduct` method,
the dispatch is the nested cross-product branch. -/
theorem scatterDispatch_two_nested (sn : String → String)
    (evS : String → Value → JobOrder → Value → Value)
    (s0 s1 : String) (inps : List SInput) (req : Value) (jo : JobOrder) :
    scatterDispatch sn evS ⟨[s0, s1], some "nested_crossproduct", inps, req⟩ jo =
    nested_crossproduct_scatter sn evS req
      (inps.filterMap (fun i => i.valueFrom.map (fun e => (sn i.id, e))))
      [s0, s1] jo := rfl

/-- With two scattered keys and a declared `flat_crossproduct` method,
the dispatch is the flat cross-product branch. -/
theorem scatterDispatch_two_flat (sn : String → String)
    (evS : String → Value → JobOrder → Value → Value)
    (s0 s1 : String) (inps : List SInput) (req : Value) (jo : JobOrder) :
    scatterDispatch sn evS ⟨[s0, s1], some "flat_crossproduct", inps, req⟩ jo =
    flat_crossproduct_scatter sn evS req
      (inps.filterMap (fun i => i.valueFrom.map (fun e => (sn i.id, e))))
      [s0, s1] jo [] := rfl

/-- A second trivial instantiation of the external expression evaluator,
at the type `postScatterEval` consumes, for stating closed facts about
steps with no `valueFrom` expressions. -/
def constNullEvalS : String → Value → JobOrder → Value → Value :=
  fun _ _ _ _ => Value.null

/-- Method `dotproduct` over a single scattered key: one child per element of
that key's list, in list order. -/
theorem dotproductScatter_single (sn : String → String)
    (evS : String → Value → JobOrder → Value → Value)
    (req : Value) (vF : List (String × String)) (jo : JobOrder)
    (s0 : String) (xs : List Value)
    (hx : List.lookup (sn s0) jo = some (Value.list xs)) :
    dotproductScatter sn evS req vF jo [s0] =
    Except.ok (xs.map (fun x =>
      OutTree.leaf (postScatterEval sn evS req vF (setKey jo (sn s0) x)))) := by
  have hg : getListAt jo (sn s0) = Except.ok xs := by
    simp only [getListAt, hx]
    rfl
  simp only [dotproductScatter, hg, except_ok_bind]
  refine Eq.trans (mapM_ok_of_forall (List.range xs.length) _
    (fun i => OutTree.leaf (postScatterEval sn evS req vF
      (setKey jo (sn s0) ((xs[i]?).getD Value.null)))) ?_) ?_
  · intro i hi
    have hilt : i < xs.length := List.mem_range.mp hi
    simp only [List.map_cons, List.map_nil, List.foldlM_cons, List.foldlM_nil,
      hg, except_ok_bind, List.getElem?_eq_getElem hilt, Option.getD_some,
      pure_bind]
    rfl
  · rw [range_map_getD xs (fun v =>
      OutTree.leaf (postScatterEval sn evS req vF (setKey jo (sn s0) v)))]

/-- Method `dotproduct` over two scattered keys: the iteration count is the
first key's list length; when the second list is at least as long, the
i-th child receives the i-th element of both keys; when the second list
is shorter, the indexing `cwljob[sc][i]` falls off its end. -/
theorem dotproductScatter_two (sn : String → String)
    (evS : String → Value → JobOrder → Value → Value)
    (req : Value) (vF : List (String × String)) (jo : JobOrder)
    (s0 s1 : String) (xs ys : List Value)
    (hx : List.lookup (sn s0) jo = some (Value.list xs))
    (hy : List.lookup (sn s1) jo = some (Value.list ys)) :
    (xs.length ≤ ys.length →
      dotproductScatter sn evS req vF jo [s0, s1] =
      Except.ok (List.zipWith (fun x y =>
        OutTree.leaf (postScatterEval sn evS req vF
          (setKey (setKey jo (sn s0) x) (sn s1) y))) xs ys)) ∧
    (ys.length < xs.length →
      dotproductScatter sn evS req vF jo [s0, s1] =
      Except.error CwlErr.indexError) := by
  have hg0 : getListAt jo (sn s0) = Except.ok xs := by
    simp only [getListAt, hx]
    rfl
  have hg1 : getListAt jo (sn s1) = Except.ok ys := by
    simp only [getListAt, hy]
    rfl
  constructor
  · intro hlen
    simp only [dotproductScatter, hg0, except_ok_bind]
    refine Eq.trans (mapM_ok_of_forall (List.range xs.length) _
      (fun i => OutTree.leaf (postScatterEval sn evS req vF
        (setKey (setKey jo (sn s0) ((xs[i]?).getD Value.null)) (sn s1)
          ((ys[i]?).getD Value.null)))) ?_) ?_
    · intro i hi
      have hix : i < xs.length := List.mem_range.mp hi
      have hiy : i < ys.length := lt_of_lt_of_le hix hlen
      simp only [List.map_cons, List.map_nil, List.foldlM_cons, List.foldlM_nil,
        hg0, hg1, except_ok_bind, List.getElem?_eq_getElem hix,
        List.getElem?_eq_getElem hiy, Option.getD_some, pure_bind]
      rfl
    · rw [range_map_getD2 xs ys (fun x y =>
        OutTree.leaf (postScatterEval sn evS req vF
          (setKey (setKey jo (sn s0) x) (sn s1) y))) hlen]
  · intro hlt
    simp only [dotproductScatter, hg0, except_ok_bind]
    have hxs : xs.length = ys.length + (xs.length - ys.length - 1 + 1) := by
      omega
    rw [hxs, List.range_add, List.range_succ_eq_map]
    simp only [List.map_cons, List.map_map, Nat.add_zero]
    refine mapM_error_mid (List.range ys.length) ys.length _ _
      (fun i => OutTree.leaf (postScatterEval sn evS req vF
        (setKey (setKey jo (sn s0) ((xs[i]?).getD Value.null)) (sn s1)
          ((ys[i]?).getD Value.null)))) _ ?_ ?_
    · intro i hi
      have hiy : i < ys.length := List.mem_range.mp hi
      have hix : i < xs.length := lt_trans hiy hlt
      simp only [List.map_cons, List.map_nil, List.foldlM_cons, List.foldlM_nil,
        hg0, hg1, except_ok_bind, List.getElem?_eq_getElem hix,
        List.getElem?_eq_getElem hiy, Option.getD_some, pure_bind]
      rfl
    · have hnone : ys[ys.length]? = none := by
        simp
      simp only [List.map_cons, List.map_nil, List.foldlM_cons, List.foldlM_nil,
        hg0, hg1, except_ok_bind, List.getElem?_eq_getElem hlt,
        Option.getD_some, hnone, pure_bind]
      rfl

/-- Claim C10: with exactly one scattered key, `CWLScatter.run` forces
the method to dotproduct regardless of the step's declared
`scatterMethod` (here arbitrary, including an unrecognized one or
`nested_crossproduct`): it produces one child per element of that key's
list in list order, never raises the unsupported-method or
missing-method error, and produces no nesting. -/
theorem single_key_scatter_forces_dotproduct (sn : String → String)
    (evR : String → Value → List (String × PendingValue) → PendingValue → Value)
    (evS : String → Value → JobOrder → Value → Value)
    (m : Option String) (inps : List SInput) (req : Value)
    (jo : JobOrder) (s0 : String) (xs : List Value)
    (hx : List.lookup (sn s0) jo = some (Value.list xs)) :
    CWLScatter_run sn evR evS ⟨[s0], m, inps, req⟩ (liftConcrete jo) =
    Except.ok (xs.map (fun x =>
      OutTree.leaf (postScatterEval sn evS req
        (inps.filterMap (fun i => i.valueFrom.map (fun e => (sn i.id, e))))
        (setKey jo (sn s0) x)))) := by
  rw [scatter_run_on_concrete, scatterDispatch_single]
  exact dotproductScatter_single sn evS req _ jo s0 xs hx

/-- Witness for C10: a step that declares `nested_crossproduct` but
scatters a single key is nevertheless run as a dotproduct, yielding one
flat child per element, in order, with no validation error. -/
theorem single_key_scatter_forces_dotproduct_witness :
    CWLScatter_run (fun s => s) constNullEval constNullEvalS
      ⟨["a"], some "nested_crossproduct", [], Value.null⟩
      (liftConcrete [("a", Value.list [Value.int 1, Value.int 2, Value.int 3]),
                     ("b", Value.int 9)]) =
    Except.ok
      [OutTree.leaf [("a", Value.int 1), ("b", Value.int 9)],
       OutTree.leaf [("a", Value.int 2), ("b", Value.int 9)],
       OutTree.leaf [("a", Value.int 3), ("b", Value.int 9)]] := by
  refine Eq.trans (single_key_scatter_forces_dotproduct (fun s => s)
    constNullEval constNullEvalS (some "nested_crossproduct") [] Value.null
    [("a", Value.list [Value.int 1, Value.int 2, Value.int 3]),
     ("b", Value.int 9)] "a" [Value.int 1, Value.int 2, Value.int 3] rfl) ?_
  rfl

/-- Claim C4 (amended): a dotproduct scatter over two scattered keys with
lists of equal length `n` produces exactly `n` children, the i-th child
receiving the i-th element of both keys (the equal-length case of the
`zipWith` below); when a later key's list is shorter than the first
key's, the indexing `cwljob[sc][i]` raises an uncaught IndexError; but
when the first key's list is the shorter one, the scatter silently
produces only `len(first)` children, ignoring the extra elements — no
scatter-shape-mismatch error exists in the code. -/
theorem dotproduct_scatter_semantics (sn : String → String)
    (evR : String → Value → List (String × PendingValue) → PendingValue → Value)
    (evS : String → Value → JobOrder → Value → Value)
    (inps : List SInput) (req : Value) (jo : JobOrder)
    (s0 s1 : String) (xs ys : List Value)
    (hx : List.lookup (sn s0) jo = some (Value.list xs))
    (hy : List.lookup (sn s1) jo = some (Value.list ys)) :
    (xs.length ≤ ys.length →
      CWLScatter_run sn evR evS ⟨[s0, s1], some "dotproduct", inps, req⟩
        (liftConcrete jo) =
      Except.ok (List.zipWith (fun x y =>
        OutTree.leaf (postScatterEval sn evS req
          (inps.filterMap (fun i => i.valueFrom.map (fun e => (sn i.id, e))))
          (setKey (setKey jo (sn s0) x) (sn s1) y))) xs ys)) ∧
    (ys.length < xs.length →
      CWLScatter_run sn evR evS ⟨[s0, s1], some "dotproduct", inps, req⟩
        (liftConcrete jo) = Except.error CwlErr.indexError) := by
  rw [scatter_run_on_concrete, scatterDispatch_two_dot]
  exact dotproductScatter_two sn evS req _ jo s0 s1 xs ys hx hy

/-- Claim C4 (counterexample): a dotproduct scatter over keys of unequal
lengths 2 and 3 does NOT fail — it silently produces 2 children and
ignores the third element of the second key, so "unequal lengths are a
fatal scatter-shape-mismatch error" is false on the code. -/
theorem dotproduct_unequal_lengths_no_error :
    CWLScatter_run (fun s => s) constNullEval constNullEvalS
      ⟨["a", "b"], some "dotproduct", [], Value.null⟩
      (liftConcrete
        [("a", Value.list [Value.int 1, Value.int 2]),
         ("b", Value.list [Value.int 10, Value.int 20, Value.int 30])]) =
    Except.ok
      [OutTree.leaf [("a", Value.int 1), ("b", Value.int 10)],
       OutTree.leaf [("a", Value.int 2), ("b", Value.int 20)]] := rfl

/-- Witness for C4: equal lengths 3 and 3 produce exactly 3 children
pairing the i-th elements, and first-key length 3 against second-key
length 2 raises the IndexError. -/
theorem dotproduct_scatter_semantics_witness :
    (CWLScatter_run (fun s => s) constNullEval constNullEvalS
      ⟨["a", "b"], some "dotproduct", [], Value.null⟩
      (liftConcrete
        [("a", Value.list [Value.int 1, Value.int 2, Value.int 3]),
         ("b", Value.list [Value.int 10, Value.int 20, Value.int 30])]) =
    Except.ok
      [OutTree.leaf [("a", Value.int 1), ("b", Value.int 10)],
       OutTree.leaf [("a", Value.int 2), ("b", Value.int 20)],
       OutTree.leaf [("a", Value.int 3), ("b", Value.int 30)]]) ∧
    (CWLScatter_run (fun s => s) constNullEval constNullEvalS
      ⟨["a", "b"], some "dotproduct", [], Value.null⟩
      (liftConcrete
        [("a", Value.list [Value.int 1, Value.int 2, Value.int 3]),
         ("b", Value.list [Value.int 10, Value.int 20])]) =
    Except.error CwlErr.indexError) := by
  constructor
  · refine Eq.trans ((dotproduct_scatter_semantics (fun s => s)
      constNullEval constNullEvalS [] Value.null
      [("a", Value.list [Value.int 1, Value.int 2, Value.int 3]),
       ("b", Value.list [Value.int 10, Value.int 20, Value.int 30])]
      "a" "b" [Value.int 1, Value.int 2, Value.int 3]
      [Value.int 10, Value.int 20, Value.int 30] rfl rfl).1
      (by decide)) ?_
    rfl
  · exact (dotproduct_scatter_semantics (fun s => s)
      constNullEval constNullEvalS [] Value.null
      [("a", Value.list [Value.int 1, Value.int 2, Value.int 3]),
       ("b", Value.list [Value.int 10, Value.int 20])]
      "a" "b" [Value.int 1, Value.int 2, Value.int 3]
      [Value.int 10, Value.int 20] rfl rfl).2 (by decide)

/-- Unfolding `flat_crossproduct_scatter` over two keys appends, for each element
of the first key's list, one block of children over the second key's
list — row-major order, the first key varying slowest. -/
theorem flat_crossproduct_two (sn : String → String)
    (evS : String → Value → JobOrder → Value → Value)
    (req : Value) (vF : List (String × String)) (jo : JobOrder)
    (s0 s1 : String) (xs ys : List Value)
    (hx : List.lookup (sn s0) jo = some (Value.list xs))
    (hy : List.lookup (sn s1) jo = some (Value.list ys))
    (hne : sn s0 ≠ sn s1) (outs : List OutTree) :
    flat_crossproduct_scatter sn evS req vF [s0, s1] jo outs =
    Except.ok (outs ++ (xs.map (fun x => ys.map (fun y =>
      OutTree.leaf (postScatterEval sn evS req vF
        (setKey (setKey jo (sn s0) x) (sn s1) y))))).flatten) := by
  have hg0 : getListAt jo (sn s0) = Except.ok xs := by
    simp only [getListAt, hx]
    rfl
  simp only [flat_crossproduct_scatter, hg0, except_ok_bind]
  refine foldlM_ok_append xs (fun x => ys.map (fun y =>
    OutTree.leaf (postScatterEval sn evS req vF
      (setKey (setKey jo (sn s0) x) (sn s1) y)))) _ outs ?_
  intro acc x _
  have hg1 : getListAt (setKey jo (sn s0) x) (sn s1) = Except.ok ys := by
    simp only [getListAt, lookup_setKey_ne jo (sn s0) (sn s1) x hne, hy]
    rfl
  simp only [flat_crossproduct_scatter, hg1, except_ok_bind]
  rfl

/-- Unfolding `nested_crossproduct_scatter` over two keys yields, for each element
of the first key's list, one nested group over the second key's list. -/
theorem nested_crossproduct_two (sn : String → String)
    (evS : String → Value → JobOrder → Value → Value)
    (req : Value) (vF : List (String × String)) (jo : JobOrder)
    (s0 s1 : String) (xs ys : List Value)
    (hx : List.lookup (sn s0) jo = some (Value.list xs))
    (hy : List.lookup (sn s1) jo = some (Value.list ys))
    (hne : sn s0 ≠ sn s1) :
    nested_crossproduct_scatter sn evS req vF [s0, s1] jo =
    Except.ok (xs.map (fun x => OutTree.node (ys.map (fun y =>
      OutTree.leaf (postScatterEval sn evS req vF
        (setKey (setKey jo (sn s0) x) (sn s1) y)))))) := by
  have hg0 : getListAt jo (sn s0) = Except.ok xs := by
    simp only [getListAt, hx]
    rfl
  simp only [nested_crossproduct_scatter, hg0, except_ok_bind]
  rw [mapM_ok_of_forall xs _ (fun x => ys.map (fun y =>
    OutTree.leaf (postScatterEval sn evS req vF
      (setKey (setKey jo (sn s0) x) (sn s1) y)))) ?_]
  · rw [except_ok_bind, List.map_map]
    rfl
  · intro x _
    have hg1 : getListAt (setKey jo (sn s0) x) (sn s1) = Except.ok ys := by
      simp only [getListAt, lookup_setKey_ne jo (sn s0) (sn s1) x hne, hy]
      rfl
    simp only [nested_crossproduct_scatter, hg1, except_ok_bind]
    rfl

/-- Claim C7: a `flat_crossproduct` scatter over two scattered keys of
lengths m and n produces the m·n children in row-major order (first key
slowest); a `nested_crossproduct` scatter over the same input produces m
groups of n, one nesting level per scattered key. -/
theorem crossproduct_scatter_shapes (sn : String → String)
    (evR : String → Value → List (String × PendingValue) → PendingValue → Value)
    (evS : String → Value → JobOrder → Value → Value)
    (inps : List SInput) (req : Value) (jo : JobOrder)
    (s0 s1 : String) (xs ys : List Value)
    (hx : List.lookup (sn s0) jo = some (Value.list xs))
    (hy : List.lookup (sn s1) jo = some (Value.list ys))
    (hne : sn s0 ≠ sn s1) :
    (CWLScatter_run sn evR evS ⟨[s0, s1], some "flat_crossproduct", inps, req⟩
      (liftConcrete jo) =
      Except.ok ((xs.map (fun x => ys.map (fun y =>
        OutTree.leaf (postScatterEval sn evS req
          (inps.filterMap (fun i => i.valueFrom.map (fun e => (sn i.id, e))))
          (setKey (setKey jo (sn s0) x) (sn s1) y))))).flatten)) ∧
    (CWLScatter_run sn evR evS ⟨[s0, s1], some "nested_crossproduct", inps, req⟩
      (liftConcrete jo) =
      Except.ok (xs.map (fun x => OutTree.node (ys.map (fun y =>
        OutTree.leaf (postScatterEval sn evS req
          (inps.filterMap (fun i => i.valueFrom.map (fun e => (sn i.id, e))))
          (setKey (setKey jo (sn s0) x) (sn s1) y))))))) := by
  constructor
  · rw [scatter_run_on_concrete, scatterDispatch_two_flat]
    refine Eq.trans (flat_crossproduct_two sn evS req _ jo s0 s1 xs ys
      hx hy hne []) ?_
    rw [List.nil_append]
  · rw [scatter_run_on_concrete, scatterDispatch_two_nested]
    exact nested_crossproduct_two sn evS req _ jo s0 s1 xs ys hx hy hne

/-- Witness for C7 at lengths 2 and 3: `flat_crossproduct` produces
exactly 6 children in row-major order, `nested_crossproduct` produces 2
groups of 3. -/
theorem crossproduct_scatter_shapes_witness :
    (CWLScatter_run (fun s => s) constNullEval constNullEvalS
      ⟨["a", "b"], some "flat_crossproduct", [], Value.null⟩
      (liftConcrete
        [("a", Value.list [Value.int 1, Value.int 2]),
         ("b", Value.list [Value.int 10, Value.int 20, Value.int 30])]) =
    Except.ok
      [OutTree.leaf [("a", Value.int 1), ("b", Value.int 10)],
       OutTree.leaf [("a", Value.int 1), ("b", Value.int 20)],
       OutTree.leaf [("a", Value.int 1), ("b", Value.int 30)],
       OutTree.leaf [("a", Value.int 2), ("b", Value.int 10)],
       OutTree.leaf [("a", Value.int 2), ("b", Value.int 20)],
       OutTree.leaf [("a", Value.int 2), ("b", Value.int 30)]]) ∧
    (CWLScatter_run (fun s => s) constNullEval constNullEvalS
      ⟨["a", "b"], some "nested_crossproduct", [], Value.null⟩
      (liftConcrete
        [("a", Value.list [Value.int 1, Value.int 2]),
         ("b", Value.list [Value.int 10, Value.int 20, Value.int 30])]) =
    Except.ok
      [OutTree.node
        [OutTree.leaf [("a", Value.int 1), ("b", Value.int 10)],
         OutTree.leaf [("a", Value.int 1), ("b", Value.int 20)],
         OutTree.leaf [("a", Value.int 1), ("b", Value.int 30)]],
       OutTree.node
        [OutTree.leaf [("a", Value.int 2), ("b", Value.int 10)],
         OutTree.leaf [("a", Value.int 2), ("b", Value.int 20)],
         OutTree.leaf [("a", Value.int 2), ("b", Value.int 30)]]]) := by
  have h := crossproduct_scatter_shapes (fun s => s) constNullEval
    constNullEvalS [] Value.null
    [("a", Value.list [Value.int 1, Value.int 2]),
     ("b", Value.list [Value.int 10, Value.int 20, Value.int 30])]
    "a" "b" [Value.int 1, Value.int 2]
    [Value.int 10, Value.int 20, Value.int 30] rfl rfl (by decide)
  exact ⟨h.1.trans rfl, h.2.trans rfl⟩

/-! ## Resource-aware task construction (`makeJob`, `CWLJobWrapper`) -/

/-- What `tool.evalResources(builder, {})` returns (an external cwltool
capability): the resolved resource request the eager `CWLJob`
constructor sizes itself from. -/
structure ResourceEstimate where
  cores : Rat
  ram : Int
  tmpdirSize : Int
  outdirSize : Int

/-- The parts of a parsed tool that `makeJob` inspects: whether
`tool.tool["class"] == "Workflow"`, and the literal content of its
`ResourceRequirement` (absent when `tool.get_requirement` yields none). -/
structure ToolModel where
  isWorkflow : Bool
  resourceReq : Option (List (String × Value))

/-- The eight resource-requirement fields `makeJob` probes. -/
def resourceFields : List String :=
  ["coresMin", "coresMax", "ramMin", "ramMax",
   "tmpdirMin", "tmpdirMax", "outdirMin", "outdirMax"]

/-- Does `pat` occur as a prefix-at-some-suffix of the character list?
(The recursion of the textbook substring test.) -/
def containsSubAux (pat : List Char) : List Char → Bool
  | [] => decide (pat = [])
  | c :: rest => pat.isPrefixOf (c :: rest) || containsSubAux pat rest

/-- Python's substring test `pat in s` (for a nonempty pattern). -/
def containsSub (s pat : String) : Bool :=
  containsSubAux pat.data s.data

/-- Embeds `isinstance(r, string_types) and ("$(" in r or "${" in r)`: a field
holds a dynamic (unevaluated expression) resource requirement.  The
two-character pattern dollar-open-brace is written with an escape. -/
def isDynamicField : Option Value → Bool
  | some (Value.str s) => containsSub s "$(" || containsSub s "$\x7b"
  | _ => false

/-- Does any of the eight resource fields hold a dynamic expression?
The Python loop early-returns at the first such field; since the
construction choice does not depend on which field triggered, the loop
is equivalent to this `any`. -/
def hasDynamicResource (t : ToolModel) : Bool :=
  match t.resourceReq with
  | some rr => resourceFields.any (fun f => isDynamicField (List.lookup f rr))
  | none => false

/-- The task nodes `makeJob` can construct: a `CWLWorkflow` with its
`ResolveIndirect` follow-on, a deferred `CWLJobWrapper`, or an eager
`CWLJob` leaf. -/
inductive ModelJob where
  | workflowJob : ToolModel → PendingDict → ModelJob
  | resolveIndirectJob : ToolModel → PendingDict → ModelJob
  | wrapperJob : ToolModel → PendingDict → ModelJob
  | leafJob : ToolModel → PendingDict → ModelJob

/-- Embeds `makeJob(tool, jobobj)`: a nested workflow gets a `CWLWorkflow` job
with a `ResolveIndirect` follow-on; a tool with any dynamic resource
field gets a `CWLJobWrapper`; anything else gets an eager `CWLJob`.
The pair is `(job, followOn)` as in the source. -/
def makeJob (t : ToolModel) (jobobj : PendingDict) : ModelJob × ModelJob :=
  if t.isWorkflow then
    (ModelJob.workflowJob t jobobj, ModelJob.resolveIndirectJob t jobobj)
  else if hasDynamicResource t then
    (ModelJob.wrapperJob t jobobj, ModelJob.wrapperJob t jobobj)
  else
    (ModelJob.leafJob t jobobj, ModelJob.leafJob t jobobj)

/-- The resource reservation a constructed job carries.  `CWLJobWrapper`
reserves the fixed minimal footprint `cores=.1, memory=1024*1024,
disk=1`; `CWLJob` sizes itself from `tool.evalResources`:
`cores=req["cores"], memory=req["ram"]*1024*1024,
disk=req["tmpdirSize"]*1024*1024 + req["outdirSize"]*1024*1024`.
`CWLWorkflow` and `ResolveIndirect` use the engine's defaults (none
here). -/
structure ResourceSpec where
  cores : Rat
  memory : Int
  disk : Int

/-- Resource reservation per constructed job kind. -/
def jobResources (evalRes : ToolModel → ResourceEstimate) :
    ModelJob → Option ResourceSpec
  | ModelJob.wrapperJob _ _ => some ⟨1/10, 1024*1024, 1⟩
  | ModelJob.leafJob t _ =>
      some ⟨(evalRes t).cores, (evalRes t).ram * 1024 * 1024,
        (evalRes t).tmpdirSize * 1024 * 1024 + (evalRes t).outdirSize * 1024 * 1024⟩
  | _ => none

/-- What one run of `CWLJobWrapper.run` produces: the resolved input
object, the real `CWLJob` child it constructs (over the still-pending
`self.cwljob`, which the child itself resolves again when it runs), and
the job whose `rv()` the wrapper returns as its own result. -/
structure WrapperOutcome where
  resolved : List (String × PendingValue)
  child : ModelJob
  returned : ModelJob

/-- Embeds `CWLJobWrapper.run(fileStore)`: first resolve the pending input
object (building the evaluation context for the dynamic resources), only
then construct the real `CWLJob` as a child and return `realjob.rv()`. -/
def CWLJobWrapper_run
    (evR : String → Value → List (String × PendingValue) → PendingValue → Value)
    (t : ToolModel) (pending : PendingDict) : Except CwlErr WrapperOutcome := do
  let res ← resolve_indirect evR pending
  let realjob := ModelJob.leafJob t pending
  pure ⟨res, realjob, realjob⟩

/-- Claim C6: task construction is resource-aware.  A non-workflow step
whose resource-requirement fields are all literals (or absent) is
constructed eagerly as a plain `CWLJob` sized from `evalResources`; a
step with any resource field that is a string containing an unevaluated
expression is constructed as a minimal-footprint `CWLJobWrapper`; and at
run time the wrapper first resolves the pending input object (failing,
and constructing nothing, if resolution fails), only then constructs the
real leaf job as its child and forwards that child's result as its
own. -/
theorem resource_aware_construction (t : ToolModel) (jobobj : PendingDict)
    (evalRes : ToolModel → ResourceEstimate)
    (hnw : t.isWorkflow = false) :
    ((∀ rr, t.resourceReq = some rr →
        ∀ f ∈ resourceFields, isDynamicField (List.lookup f rr) = false) →
      makeJob t jobobj = (ModelJob.leafJob t jobobj, ModelJob.leafJob t jobobj) ∧
      jobResources evalRes (ModelJob.leafJob t jobobj) =
        some ⟨(evalRes t).cores, (evalRes t).ram * 1024 * 1024,
          (evalRes t).tmpdirSize * 1024 * 1024 +
            (evalRes t).outdirSize * 1024 * 1024⟩) ∧
    ((∃ rr, t.resourceReq = some rr ∧
        ∃ f ∈ resourceFields, isDynamicField (List.lookup f rr) = true) →
      makeJob t jobobj = (ModelJob.wrapperJob t jobobj, ModelJob.wrapperJob t jobobj) ∧
      jobResources evalRes (ModelJob.wrapperJob t jobobj) =
        some ⟨1/10, 1024*1024, 1⟩) ∧
    (∀ (evR : String → Value → List (String × PendingValue) → PendingValue → Value)
        (pending : PendingDict),
      (∀ e, resolve_indirect evR pending = Except.error e →
        CWLJobWrapper_run evR t pending = Except.error e) ∧
      (∀ res, resolve_indirect evR pending = Except.ok res →
        CWLJobWrapper_run evR t pending =
          Except.ok ⟨res, ModelJob.leafJob t pending,
            ModelJob.leafJob t pending⟩)) := by
  refine ⟨?_, ?_, ?_⟩
  · intro hlit
    have hdyn : hasDynamicResource t = false := by
      unfold hasDynamicResource
      cases hrr : t.resourceReq with
      | none => rfl
      | some rr =>
        apply List.any_eq_false.mpr
        intro f hf
        simp [hlit rr hrr f hf]
    constructor
    · simp [makeJob, hnw, hdyn]
    · rfl
  · intro hdynEx
    obtain ⟨rr, hrr, f, hf, hdynf⟩ := hdynEx
    have hdyn : hasDynamicResource t = true := by
      unfold hasDynamicResource
      rw [hrr]
      exact List.any_eq_true.mpr ⟨f, hf, hdynf⟩
    constructor
    · simp [makeJob, hnw, hdyn]
    · rfl
  · intro evR pending
    constructor
    · intro e he
      unfold CWLJobWrapper_run
      rw [he]
      rfl
    · intro res hres
      unfold CWLJobWrapper_run
      rw [hres, except_ok_bind]
      rfl

/-- Witness for C6: a tool whose `ResourceRequirement` holds only the
literal `coresMin: 2` is built as an eager `CWLJob`; a tool whose
`ramMin` is the expression string `$(inputs.n)` is built as a
minimal-footprint `CWLJobWrapper`, and running that wrapper on a
concrete pending input resolves it and then constructs the leaf child,
forwarding its result. -/
theorem resource_aware_construction_witness :
    (makeJob ⟨false, some [("coresMin", Value.int 2)]⟩ ⟨false, []⟩ =
      (ModelJob.leafJob ⟨false, some [("coresMin", Value.int 2)]⟩ ⟨false, []⟩,
       ModelJob.leafJob ⟨false, some [("coresMin", Value.int 2)]⟩ ⟨false, []⟩)) ∧
    (makeJob ⟨false, some [("ramMin", Value.str "$(inputs.n)")]⟩ ⟨false, []⟩ =
      (ModelJob.wrapperJob ⟨false, some [("ramMin", Value.str "$(inputs.n)")]⟩ ⟨false, []⟩,
       ModelJob.wrapperJob ⟨false, some [("ramMin", Value.str "$(inputs.n)")]⟩ ⟨false, []⟩)) ∧
    (CWLJobWrapper_run constNullEval ⟨false, some [("ramMin", Value.str "$(inputs.n)")]⟩
        ⟨false, [("x", PendingValue.concrete (Value.int 5))]⟩ =
      Except.ok ⟨[("x", PendingValue.concrete (Value.int 5))],
        ModelJob.leafJob ⟨false, some [("ramMin", Value.str "$(inputs.n)")]⟩
          ⟨false, [("x", PendingValue.concrete (Value.int 5))]⟩,
        ModelJob.leafJob ⟨false, some [("ramMin", Value.str "$(inputs.n)")]⟩
          ⟨false, [("x", PendingValue.concrete (Value.int 5))]⟩⟩) := by
  refine ⟨?_, ?_, ?_⟩
  · exact ((resource_aware_construction ⟨false, some [("coresMin", Value.int 2)]⟩
      ⟨false, []⟩ (fun _ => ⟨1, 1, 1, 1⟩) rfl).1
      (by
        intro rr hrr f hf
        cases hrr
        fin_cases hf <;> decide)).1
  · exact ((resource_aware_construction
      ⟨false, some [("ramMin", Value.str "$(inputs.n)")]⟩
      ⟨false, []⟩ (fun _ => ⟨1, 1, 1, 1⟩) rfl).2.1
      ⟨[("ramMin", Value.str "$(inputs.n)")], rfl,
        "ramMin", by decide, by decide⟩).1
  · exact (((resource_aware_construction
      ⟨false, some [("ramMin", Value.str "$(inputs.n)")]⟩
      ⟨false, []⟩ (fun _ => ⟨1, 1, 1, 1⟩) rfl).2.2 constNullEval
      ⟨false, [("x", PendingValue.concrete (Value.int 5))]⟩).2
      [("x", PendingValue.concrete (Value.int 5))] rfl)

/-! ## The fixpoint scheduling loop of `CWLWorkflow.run`

The loop's control flow reads only *key membership* in the two dicts it
maintains (`promises` and `jobs`); the values stored there (job handles
whose `rv()` is wired into the constructed input objects, cf. the
resolution engine above) never influence which steps get scheduled, when
the loop exits, or whether it exits at all.  The embedding therefore
tracks the key set of `promises` (insertion order preserved, overwrites
dropped, as for a Python dict) and the key list of `jobs`; the input
object construction and child-edge wiring performed for a scheduled step
are the subject of the other components' definitions. -/

/-- One step input as the scheduler reads it: `aslist(inp["source"])`
when the `source` key is present, the empty list otherwise (an absent
source imposes no scheduling constraint). -/
structure WInput where
  id : String
  sources : List String

/-- One workflow step: `step.tool["id"]`, its inputs, and its declared
output parameter ids (`out["id"]` for `out` in `step.tool["outputs"]`). -/
structure WStep where
  id : String
  inputs : List WInput
  outputs : List String

/-- One workflow-level output as the fulfillment check at the bottom of
the loop reads it: its optional `source` key. -/
structure WOut where
  source : Option String

/-- The workflow document as `CWLWorkflow.run` consumes it: the
workflow input parameter ids (each seeded as a self-promise), the step
list, and the workflow-level outputs. -/
structure WDef where
  inputs : List String
  steps : List WStep
  outputs : List WOut

/-- The loop's mutable state: the key set of the `promises` dict and the
key list of the `jobs` dict (in scheduling order). -/
structure SchedState where
  promises : List String
  jobs : List String
deriving DecidableEq, Repr

/-- Python dict key insertion: adding an existing key leaves the key set
unchanged (the stored value is overwritten), a new key is appended. -/
def addKey (ps : List String) (k : String) : List String :=
  if k ∈ ps then ps else ps ++ [k]

/-- Embeds `stepinputs_fufilled`: every declared source of every input port of
the step is present in the promise map (sic: the source's spelling). -/
def stepinputsFufilled (promises : List String) (st : WStep) : Bool :=
  st.inputs.all (fun inp => inp.sources.all (fun src => decide (src ∈ promises)))

/-- The body of `for step in self.cwlwf.steps` for one step: an
unscheduled step whose sources are all promised is constructed and
registered (`jobs[step.tool["id"]] = followOn`) and a promise is
published for each of its declared outputs
(`promises[out["id"]] = followOn`); otherwise nothing changes. -/
def processStep (s : SchedState) (st : WStep) : SchedState :=
  if st.id ∈ s.jobs then s
  else if stepinputsFufilled s.promises st then
    { promises := st.outputs.foldl addKey s.promises, jobs := s.jobs ++ [st.id] }
  else s

/-- One pass of the `for step` loop, threading the state and the
`alloutputs_fufilled` flag; after (possibly) scheduling each step, the
loop re-checks that step's sources against the current promise map and
clears the flag on any miss. -/
def passSteps : List WStep → SchedState → Bool → SchedState × Bool
  | [], s, flag => (s, flag)
  | st :: rest, s, flag =>
    let s' := processStep s st
    passSteps rest s' (flag && stepinputsFufilled s'.promises st)

/-- The check over workflow-level outputs at the bottom of each pass:
any output with a `source` key not yet in the promise map clears the
flag. -/
def outputsFufilled (wf : WDef) (s : SchedState) : Bool :=
  wf.outputs.all (fun o =>
    match o.source with
    | some src => decide (src ∈ s.promises)
    | none => true)

/-- One full iteration of the `while not alloutputs_fufilled` loop:
a pass over the steps starting with the flag set, then the
workflow-output check. -/
def runPass (wf : WDef) (s : SchedState) : SchedState × Bool :=
  let p := passSteps wf.steps s true
  (p.1, p.2 && outputsFufilled wf p.1)

/-- The state on entry to the loop: every workflow input id is seeded as
a (self-)promise, no step is scheduled. -/
def initState (wf : WDef) : SchedState :=
  { promises := wf.inputs.foldl addKey [], jobs := [] }

/-- The whole loop, fuel-indexed: `some s` when the flag is set after at
most `n` passes (the loop exits), `none` when `n` passes were consumed
with the flag still clear (the loop is still running).  The source loop
has no other exit: no error is ever raised from it. -/
def runLoop (wf : WDef) : SchedState → Nat → Option SchedState
  | _, 0 => none
  | s, n+1 =>
    let p := runPass wf s
    if p.2 then some p.1 else runLoop wf p.1 n

/-! ### Basic lemmas about the pass -/

/-- Membership after a dict key insertion. -/
theorem mem_addKey (ps : List String) (k a : String) :
    a ∈ addKey ps k ↔ a ∈ ps ∨ a = k := by
  unfold addKey
  by_cases h : k ∈ ps
  · simp only [if_pos h]
    constructor
    · exact Or.inl
    · rintro (ha | rfl)
      · exact ha
      · exact h
  · simp [if_neg h]

/-- Inserted keys are kept. -/
theorem subset_addKey (ps : List String) (k : String) : ps ⊆ addKey ps k := by
  intro a ha
  exact (mem_addKey ps k a).mpr (Or.inl ha)

/-- Membership after a batch of dict key insertions. -/
theorem mem_foldl_addKey (ks : List String) (ps : List String) (a : String) :
    a ∈ ks.foldl addKey ps ↔ a ∈ ps ∨ a ∈ ks := by
  induction ks generalizing ps with
  | nil => simp
  | cons k rest ih =>
    rw [List.foldl_cons, ih]
    rw [mem_addKey]
    simp only [List.mem_cons]
    tauto

/-- Batch insertion keeps existing keys. -/
theorem subset_foldl_addKey (ks : List String) (ps : List String) :
    ps ⊆ ks.foldl addKey ps := by
  intro a ha
  exact (mem_foldl_addKey ks ps a).mpr (Or.inl ha)

/-- Fulfillment is monotone in the promise map. -/
theorem stepinputsFufilled_mono (ps ps' : List String) (st : WStep)
    (hsub : ps ⊆ ps') (h : stepinputsFufilled ps st = true) :
    stepinputsFufilled ps' st = true := by
  unfold stepinputsFufilled at h ⊢
  rw [List.all_eq_true] at h ⊢
  intro inp hinp
  have h2 := h inp hinp
  rw [List.all_eq_true] at h2 ⊢
  intro src hsrc
  have := h2 src hsrc
  simp only [decide_eq_true_eq] at this ⊢
  exact hsub this

/-- The `processStep` update only grows the promise map. -/
theorem processStep_promises_mono (s : SchedState) (st : WStep) :
    s.promises ⊆ (processStep s st).promises := by
  unfold processStep
  by_cases h1 : st.id ∈ s.jobs
  · simp [h1]
  · by_cases h2 : stepinputsFufilled s.promises st
    · simp only [h1, if_neg h1, h2, if_pos h2]
      exact subset_foldl_addKey st.outputs s.promises
    · simp [h1, h2]

/-- The `processStep` update only grows the scheduled set. -/
theorem processStep_jobs_mono (s : SchedState) (st : WStep) :
    s.jobs ⊆ (processStep s st).jobs := by
  unfold processStep
  by_cases h1 : st.id ∈ s.jobs
  · simp [h1]
  · by_cases h2 : stepinputsFufilled s.promises st
    · simp only [h1, if_neg h1, h2, if_pos h2]
      intro a ha
      exact List.mem_append_left _ ha
    · simp [h1, h2]

/-- A pass only grows the promise map. -/
theorem passSteps_promises_mono (l : List WStep) (s : SchedState) (flag : Bool) :
    s.promises ⊆ (passSteps l s flag).1.promises := by
  induction l generalizing s flag with
  | nil => exact fun a ha => ha
  | cons st rest ih =>
    simp only [passSteps]
    exact fun a ha => ih (processStep s st) _ (processStep_promises_mono s st ha)

/-- A pass only grows the scheduled set. -/
theorem passSteps_jobs_mono (l : List WStep) (s : SchedState) (flag : Bool) :
    s.jobs ⊆ (passSteps l s flag).1.jobs := by
  induction l generalizing s flag with
  | nil => exact fun a ha => ha
  | cons st rest ih =>
    simp only [passSteps]
    exact fun a ha => ih (processStep s st) _ (processStep_jobs_mono s st ha)

/-- The scheduler's loop invariant: the scheduled list has no duplicates,
names only real steps, and every scheduled step has published promises
for all of its outputs. -/
def SchedInv (wf : WDef) (s : SchedState) : Prop :=
  s.jobs.Nodup ∧
  (∀ j ∈ s.jobs, ∃ st ∈ wf.steps, st.id = j) ∧
  (∀ st ∈ wf.steps, st.id ∈ s.jobs → ∀ o ∈ st.outputs, o ∈ s.promises)

/-- The `processStep` update preserves the loop invariant (step ids are unique). -/
theorem processStep_inv (wf : WDef) (s : SchedState) (st : WStep)
    (hst : st ∈ wf.steps) (hids : (wf.steps.map WStep.id).Nodup)
    (hinv : SchedInv wf s) : SchedInv wf (processStep s st) := by
  obtain ⟨hnd, hdom, hout⟩ := hinv
  unfold processStep
  by_cases h1 : st.id ∈ s.jobs
  · simpa [h1] using ⟨hnd, hdom, hout⟩
  · by_cases h2 : stepinputsFufilled s.promises st
    · simp only [h1, if_neg h1, h2, if_pos h2]
      refine ⟨?_, ?_, ?_⟩
      · simpa [List.nodup_append] using ⟨hnd, h1⟩
      · intro j hj
        rcases List.mem_append.mp hj with hj' | hj'
        · exact hdom j hj'
        · simp only [List.mem_singleton] at hj'
          exact ⟨st, hst, hj'.symm⟩
      · intro st' hst' hjs o ho
        rcases List.mem_append.mp hjs with hjs' | hjs'
        · exact subset_foldl_addKey st.outputs s.promises (hout st' hst' hjs' o ho)
        · simp only [List.mem_singleton] at hjs'
          have : st' = st :=
            List.inj_on_of_nodup_map hids hst' hst hjs'
          subst this
          exact (mem_foldl_addKey st'.outputs s.promises o).mpr (Or.inr ho)
    · simpa [h1, h2] using ⟨hnd, hdom, hout⟩

/-- A pass preserves the loop invariant. -/
theorem passSteps_inv (wf : WDef) (l : List WStep) (s : SchedState)
    (flag : Bool) (hl : ∀ st ∈ l, st ∈ wf.steps)
    (hids : (wf.steps.map WStep.id).Nodup)
    (hinv : SchedInv wf s) : SchedInv wf (passSteps l s flag).1 := by
  induction l generalizing s flag with
  | nil => exact hinv
  | cons st rest ih =>
    simp only [passSteps]
    exact ih (processStep s st) _
      (fun st' h => hl st' (List.mem_cons_of_mem st h))
      (processStep_inv wf s st (hl st (List.mem_cons_self st rest)) hids hinv)

/-- A step schedulable at the start of a pass is scheduled by the end of
that pass. -/
theorem passSteps_schedules (l : List WStep) (s : SchedState) (flag : Bool)
    (st : WStep) (hst : st ∈ l)
    (hful : stepinputsFufilled s.promises st = true) :
    st.id ∈ (passSteps l s flag).1.jobs := by
  induction l generalizing s flag with
  | nil => cases hst
  | cons hd rest ih =>
    simp only [passSteps]
    rcases List.mem_cons.mp hst with rfl | hmem
    · -- the head is the step itself: `processStep` schedules it (or it
      -- already was), and scheduling is never undone
      have hin : st.id ∈ (processStep s st).jobs := by
        unfold processStep
        by_cases h1 : st.id ∈ s.jobs
        · simp only [if_pos h1]
          exact h1
        · simp [h1, hful]
      exact passSteps_jobs_mono rest (processStep s st) _ hin
    · exact ih (processStep s hd) _ hmem
        (stepinputsFufilled_mono s.promises (processStep s hd).promises st
          (processStep_promises_mono s hd) hful)

/-- A cleared flag can never be set again within a pass. -/
theorem passSteps_false (l : List WStep) (s : SchedState) :
    (passSteps l s false).2 = false := by
  induction l generalizing s with
  | nil => rfl
  | cons st rest ih =>
    simp only [passSteps, Bool.false_and]
    exact ih (processStep s st)

/-- If the flag survives a pass, every step of the pass is scheduled in
the final state. -/
theorem passSteps_flag_complete (l : List WStep) (s : SchedState)
    (hflag : (passSteps l s true).2 = true) :
    ∀ st ∈ l, st.id ∈ (passSteps l s true).1.jobs := by
  induction l generalizing s with
  | nil => intro st h; cases h
  | cons hd rest ih =>
    intro st hst
    simp only [passSteps] at hflag ⊢
    cases hc : stepinputsFufilled (processStep s hd).promises hd with
    | false =>
      rw [hc, Bool.and_false, passSteps_false] at hflag
      cases hflag
    | true =>
      rw [hc, Bool.and_true] at hflag
      rw [Bool.and_true]
      rcases List.mem_cons.mp hst with rfl | hmem
      · have hin : st.id ∈ (processStep s st).jobs := by
          by_cases h1 : st.id ∈ s.jobs
          · exact processStep_jobs_mono s st h1
          · by_cases h2 : stepinputsFufilled s.promises st
            · unfold processStep
              simp [h1, h2]
            · have heq : processStep s st = s := by
                unfold processStep
                simp [h1, h2]
              rw [heq] at hc
              exact absurd hc h2
        exact passSteps_jobs_mono rest (processStep s st) _ hin
      · exact ih (processStep s hd) hflag st hmem

/-- The states the loop visits: n-fold iteration of `runPass` (ignoring
the exit test). -/
def iterPass (wf : WDef) (s : SchedState) : Nat → SchedState
  | 0 => s
  | n+1 => (runPass wf (iterPass wf s n)).1

/-- Iterating once more from the start is iterating from the first
pass's result. -/
theorem iterPass_shift (wf : WDef) (s : SchedState) (n : Nat) :
    iterPass wf s (n+1) = iterPass wf (runPass wf s).1 n := by
  induction n with
  | zero => rfl
  | succ m ih =>
    show (runPass wf (iterPass wf s (m+1))).1 =
      (runPass wf (iterPass wf (runPass wf s).1 m)).1
    rw [ih]

/-- A full iteration only grows the promise map. -/
theorem runPass_promises_mono (wf : WDef) (s : SchedState) :
    s.promises ⊆ (runPass wf s).1.promises :=
  passSteps_promises_mono wf.steps s true

/-- A full iteration only grows the scheduled set. -/
theorem runPass_jobs_mono (wf : WDef) (s : SchedState) :
    s.jobs ⊆ (runPass wf s).1.jobs :=
  passSteps_jobs_mono wf.steps s true

/-- A full iteration preserves the loop invariant. -/
theorem runPass_inv (wf : WDef) (s : SchedState)
    (hids : (wf.steps.map WStep.id).Nodup) (hinv : SchedInv wf s) :
    SchedInv wf (runPass wf s).1 :=
  passSteps_inv wf wf.steps s true (fun _ h => h) hids hinv

/-- The loop invariant holds on entry. -/
theorem initState_inv (wf : WDef) : SchedInv wf (initState wf) :=
  ⟨List.nodup_nil, fun j hj => absurd hj (List.not_mem_nil j),
   fun st _ hj => absurd hj (List.not_mem_nil st.id)⟩

/-- The loop invariant holds at every visited state. -/
theorem iterPass_inv (wf : WDef) (s : SchedState)
    (hids : (wf.steps.map WStep.id).Nodup) (hinv : SchedInv wf s) :
    ∀ n, SchedInv wf (iterPass wf s n)
  | 0 => hinv
  | n+1 => runPass_inv wf _ hids (iterPass_inv wf s hids hinv n)

/-- Promises only grow along the iteration. -/
theorem iterPass_promises_mono (wf : WDef) (s : SchedState) :
    ∀ n, s.promises ⊆ (iterPass wf s n).promises
  | 0 => fun _ h => h
  | n+1 => fun _ ha =>
      runPass_promises_mono wf (iterPass wf s n)
        (iterPass_promises_mono wf s n ha)

/-- The scheduled set grows by one more pass. -/
theorem iterPass_jobs_step (wf : WDef) (s : SchedState) (n : Nat) :
    (iterPass wf s n).jobs ⊆ (iterPass wf s (n+1)).jobs :=
  runPass_jobs_mono wf (iterPass wf s n)

/-- Under an acyclicity witness (`depth` decreases along dependency
edges), every step is scheduled after enough passes: a step of depth
below `k` is scheduled within `k` passes. -/
theorem iterPass_depth_complete (wf : WDef) (depth : String → Nat)
    (hids : (wf.steps.map WStep.id).Nodup)
    (hdep : ∀ st ∈ wf.steps, ∀ inp ∈ st.inputs, ∀ src ∈ inp.sources,
      src ∈ (initState wf).promises ∨
      ∃ st' ∈ wf.steps, depth st'.id < depth st.id ∧ src ∈ st'.outputs) :
    ∀ k, ∀ st ∈ wf.steps, depth st.id < k →
      st.id ∈ (iterPass wf (initState wf) k).jobs := by
  intro k
  induction k with
  | zero => intro st _ h; cases h
  | succ m ih =>
    intro st hst hlt
    by_cases hm : depth st.id < m
    · exact iterPass_jobs_step wf (initState wf) m (ih st hst hm)
    · have hful : stepinputsFufilled
          (iterPass wf (initState wf) m).promises st = true := by
        unfold stepinputsFufilled
        rw [List.all_eq_true]
        intro inp hinp
        rw [List.all_eq_true]
        intro src hsrc
        simp only [decide_eq_true_eq]
        rcases hdep st hst inp hinp src hsrc with hin | ⟨st', hst', hdlt, hout⟩
        · exact iterPass_promises_mono wf (initState wf) m hin
        · have hjobs : st'.id ∈ (iterPass wf (initState wf) m).jobs :=
            ih st' hst' (by omega)
          exact (iterPass_inv wf (initState wf) hids (initState_inv wf) m).2.2
            st' hst' hjobs src hout
      show st.id ∈ (runPass wf (iterPass wf (initState wf) m)).1.jobs
      exact passSteps_schedules wf.steps _ true st hst hful

/-- A pass whose every step is already satisfied keeps the flag set. -/
theorem passSteps_all_fulfilled (l : List WStep) (s : SchedState)
    (h : ∀ st ∈ l, stepinputsFufilled s.promises st = true) :
    (passSteps l s true).2 = true := by
  induction l generalizing s with
  | nil => rfl
  | cons hd rest ih =>
    simp only [passSteps]
    have hhd : stepinputsFufilled (processStep s hd).promises hd = true :=
      stepinputsFufilled_mono _ _ hd (processStep_promises_mono s hd)
        (h hd (List.mem_cons_self hd rest))
    rw [hhd, Bool.and_true]
    exact ih (processStep s hd) (fun st hst =>
      stepinputsFufilled_mono _ _ st (processStep_promises_mono s hd)
        (h st (List.mem_cons_of_mem hd hst)))

/-- All promised workflow outputs make the output check succeed. -/
theorem outputsFufilled_true (wf : WDef) (s : SchedState)
    (h : ∀ o ∈ wf.outputs, ∀ src, o.source = some src → src ∈ s.promises) :
    outputsFufilled wf s = true := by
  unfold outputsFufilled
  rw [List.all_eq_true]
  intro o ho
  cases hsrc : o.source with
  | none => rfl
  | some src => exact decide_eq_true (h o ho src hsrc)

/-- A state in which every step's sources and every workflow output
source are promised makes the whole iteration exit with the flag set. -/
theorem runPass_flag_true (wf : WDef) (s : SchedState)
    (hsteps : ∀ st ∈ wf.steps, stepinputsFufilled s.promises st = true)
    (houts : ∀ o ∈ wf.outputs, ∀ src, o.source = some src → src ∈ s.promises) :
    (runPass wf s).2 = true := by
  show ((passSteps wf.steps s true).2 &&
    outputsFufilled wf (passSteps wf.steps s true).1) = true
  rw [passSteps_all_fulfilled wf.steps s hsteps, Bool.true_and]
  exact outputsFufilled_true wf _ (fun o ho src hsrc =>
    passSteps_promises_mono wf.steps s true (houts o ho src hsrc))

/-- The loop with a set flag exits with the pass's state. -/
theorem runLoop_step_true (wf : WDef) (s : SchedState) (n : Nat)
    (h : (runPass wf s).2 = true) :
    runLoop wf s (n+1) = some (runPass wf s).1 := by
  simp only [runLoop, h, if_true]

/-- The loop with a cleared flag continues from the pass's state. -/
theorem runLoop_step_false (wf : WDef) (s : SchedState) (n : Nat)
    (h : (runPass wf s).2 = false) :
    runLoop wf s (n+1) = runLoop wf (runPass wf s).1 n := by
  simp only [runLoop, h]
  rfl

/-- If the flag gets set at the n-th visited state, the loop exits
within n+1 passes. -/
theorem runLoop_terminates_of_iter (wf : WDef) :
    ∀ (n : Nat) (s : SchedState), (runPass wf (iterPass wf s n)).2 = true →
    ∃ s', runLoop wf s (n+1) = some s'
  | 0, s, h => ⟨(runPass wf s).1, runLoop_step_true wf s 0 h⟩
  | n+1, s, h => by
    cases hf : (runPass wf s).2 with
    | true => exact ⟨(runPass wf s).1, runLoop_step_true wf s (n+1) hf⟩
    | false =>
      rw [runLoop_step_false wf s (n+1) hf]
      apply runLoop_terminates_of_iter wf n (runPass wf s).1
      rw [← iterPass_shift]
      exact h

/-- Whatever state the loop exits with satisfies the invariant and has
every step scheduled (the exit flag certifies each step's
post-scheduling check). -/
theorem runLoop_result (wf : WDef) (hids : (wf.steps.map WStep.id).Nodup) :
    ∀ (n : Nat) (s s' : SchedState), SchedInv wf s →
    runLoop wf s n = some s' →
    SchedInv wf s' ∧ ∀ st ∈ wf.steps, st.id ∈ s'.jobs
  | 0, _, _, _, h => by cases h
  | n+1, s, s', hinv, h => by
    cases hf : (runPass wf s).2 with
    | true =>
      rw [runLoop_step_true wf s n hf] at h
      have hs' : (runPass wf s).1 = s' := Option.some.inj h
      subst hs'
      refine ⟨runPass_inv wf s hids hinv, ?_⟩
      intro st hst
      have hok1 : (passSteps wf.steps s true).2 = true := by
        have : ((passSteps wf.steps s true).2 &&
            outputsFufilled wf (passSteps wf.steps s true).1) = true := hf
        exact (Bool.and_eq_true
          (passSteps wf.steps s true).2
          (outputsFufilled wf (passSteps wf.steps s true).1) ▸ this).1
      exact passSteps_flag_complete wf.steps s hok1 st hst
    | false =>
      rw [runLoop_step_false wf s n hf] at h
      exact runLoop_result wf hids n _ s' (runPass_inv wf s hids hinv) h

/-- Every member is below the running maximum. -/
theorem le_foldr_max (l : List Nat) (a : Nat) (h : a ∈ l) :
    a ≤ l.foldr max 0 := by
  induction l with
  | nil => cases h
  | cons b t ih =>
    rcases List.mem_cons.mp h with rfl | h'
    · exact le_max_left a (t.foldr max 0)
    · exact le_trans (ih h') (le_max_right b (t.foldr max 0))

/-- Claim C2: for a well-formed step list — distinct step identifiers,
an acyclicity witness `depth` under which every declared source is a
workflow input or an output of a step of smaller depth, and workflow
output sources that some workflow input or step output produces — the
fixpoint loop of `CWLWorkflow.run` terminates, and the exit state has
constructed and registered exactly one job per step: each step's id is
registered exactly once and nothing else is registered. -/
theorem fixpoint_schedules_each_step_once (wf : WDef) (depth : String → Nat)
    (hids : (wf.steps.map WStep.id).Nodup)
    (hdep : ∀ st ∈ wf.steps, ∀ inp ∈ st.inputs, ∀ src ∈ inp.sources,
      src ∈ (initState wf).promises ∨
      ∃ st' ∈ wf.steps, depth st'.id < depth st.id ∧ src ∈ st'.outputs)
    (houts : ∀ o ∈ wf.outputs, ∀ src, o.source = some src →
      src ∈ (initState wf).promises ∨ ∃ st ∈ wf.steps, src ∈ st.outputs) :
    ∃ n s', runLoop wf (initState wf) n = some s' ∧
      (∀ st ∈ wf.steps, s'.jobs.count st.id = 1) ∧
      (∀ j ∈ s'.jobs, ∃ st ∈ wf.steps, st.id = j) := by
  obtain ⟨D, hD⟩ : ∃ D, ∀ st ∈ wf.steps, depth st.id < D :=
    ⟨(wf.steps.map (fun st => depth st.id)).foldr max 0 + 1, fun st hst =>
      Nat.lt_succ_of_le (le_foldr_max _ _ (List.mem_map.mpr ⟨st, hst, rfl⟩))⟩
  have hcomplete := iterPass_depth_complete wf depth hids hdep D
  have hpromised : ∀ src, (src ∈ (initState wf).promises ∨
      ∃ st ∈ wf.steps, src ∈ st.outputs) →
      src ∈ (iterPass wf (initState wf) D).promises := by
    intro src hsrc
    rcases hsrc with hin | ⟨st, hst, hout⟩
    · exact iterPass_promises_mono wf (initState wf) D hin
    · exact (iterPass_inv wf (initState wf) hids (initState_inv wf) D).2.2
        st hst (hcomplete st hst (hD st hst)) src hout
  have hflag : (runPass wf (iterPass wf (initState wf) D)).2 = true := by
    apply runPass_flag_true
    · intro st hst
      unfold stepinputsFufilled
      rw [List.all_eq_true]
      intro inp hinp
      rw [List.all_eq_true]
      intro src hsrc
      simp only [decide_eq_true_eq]
      apply hpromised
      rcases hdep st hst inp hinp src hsrc with hin | ⟨st', hst', _, hout⟩
      · exact Or.inl hin
      · exact Or.inr ⟨st', hst', hout⟩
    · intro o ho src hsrc
      exact hpromised src (houts o ho src hsrc)
  obtain ⟨s', hs'⟩ := runLoop_terminates_of_iter wf D (initState wf) hflag
  obtain ⟨⟨hnd, hdom, _⟩, hall⟩ :=
    runLoop_result wf hids (D+1) (initState wf) s' (initState_inv wf) hs'
  exact ⟨D+1, s', hs',
    fun st hst => List.count_eq_one_of_mem hnd (hall st hst), hdom⟩

/-- A demo workflow whose steps are listed against dependency order:
step `sB` consumes `sA`'s output, so the first pass can only schedule
`sA` and a second pass is needed for `sB` — exercising the fixpoint. -/
def wfDemo : WDef :=
  ⟨["w_in"],
   [⟨"sB", [⟨"bx", ["a_out"]⟩], ["b_out"]⟩,
    ⟨"sA", [⟨"ax", ["w_in"]⟩], ["a_out"]⟩],
   [⟨some "b_out"⟩]⟩

/-- Witness for C2: on the two-step demo workflow (listed in reverse
dependency order) the loop terminates and registers exactly one job per
step. -/
theorem fixpoint_schedules_each_step_once_witness :
    ∃ n s', runLoop wfDemo (initState wfDemo) n = some s' ∧
      (∀ st ∈ wfDemo.steps, s'.jobs.count st.id = 1) ∧
      (∀ j ∈ s'.jobs, ∃ st ∈ wfDemo.steps, st.id = j) := by
  apply fixpoint_schedules_each_step_once wfDemo
    (fun id => if id = "sB" then 1 else 0)
  · decide
  · decide
  · decide

/-- The malformed workflow of claim C1: its only workflow output draws
from source `o2`, an identifier neither the workflow input nor the only
step (`s1`, producing `o1`) ever promises. -/
def wfBad : WDef :=
  ⟨["w_in"], [⟨"s1", [⟨"x", ["w_in"]⟩], ["o1"]⟩], [⟨some "o2"⟩]⟩

/-- The state `wfBad`'s loop reaches after one pass and then never
leaves: `s1` scheduled, promises `w_in` and `o1`, output `o2` missing. -/
def wfBadStalled : SchedState := ⟨["w_in", "o1"], ["s1"]⟩

/-- A pass that returns its own input state with the flag clear pins the
loop there forever. -/
theorem runLoop_stationary (wf : WDef) (s : SchedState)
    (h : runPass wf s = (s, false)) : ∀ n, runLoop wf s n = none
  | 0 => rfl
  | n+1 => by
    simp only [runLoop, h]
    exact runLoop_stationary wf s h n

/-- Claim C1 (the code, not the claim): on `wfBad` the fixpoint loop of
`CWLWorkflow.run` stalls — after the first pass every step is scheduled,
no pass makes any further promise-map insertion or state change, the
workflow-output check keeps failing — and the loop runs forever: for
every fuel bound the loop is still iterating.  The loop body has no
error path at all (`runLoop`'s codomain separates only "exited with a
state" from "still looping"), so no `graph-unsatisfiable` error is ever
reported. -/
theorem scheduler_stall_loops_forever :
    (runPass wfBad wfBadStalled = (wfBadStalled, false)) ∧
    (∀ st ∈ wfBad.steps, st.id ∈ wfBadStalled.jobs) ∧
    (outputsFufilled wfBad wfBadStalled = false) ∧
    (∀ n, runLoop wfBad (initState wfBad) n = none) := by
  refine ⟨by decide, by decide, by decide, ?_⟩
  intro n
  cases n with
  | zero => rfl
  | succ m =>
    rw [runLoop_step_false wfBad (initState wfBad) m (by decide)]
    have h2 : (runPass wfBad (initState wfBad)).1 = wfBadStalled := by decide
    rw [h2]
    exact runLoop_stationary wfBad wfBadStalled (by decide) m
